import Mathlib

/-!
# Verification of BreakPointManager (src/breakPointManager.js)

Shallow embedding of the breakpoint manager: the module-level state
`breakPoints` (a JS array of strings) is passed explicitly, DOM reads
(viewport width, the class attribute of the root element) are parameters,
and the DOM write (assignment to `className`) is the returned string.

JavaScript values that can reach the public API are modelled by `JSPrim`
and `JSArg` (numbers, strings, arrays of scalars); JS numbers are modelled
exactly — an inductive with NaN, the two infinities and finite rationals —
rather than by IEEE doubles, which is faithful for every quantity the
claims mention.  Class strings are `List Char`, written `Str`.
-/

set_option maxRecDepth 4000

/-- Character strings, as character lists (JS strings are sequences of
code units; the class-attribute algorithms only ever index and slice). -/
abbrev Str := List Char

/-- Shorthand: the character list of a Lean string literal. -/
def toL (s : String) : Str := s.data

/-- JS whitespace as used by `Number(...)` trimming and the `\s` regex
class (space, tab, LF, CR, VT, FF; the rarer Unicode space code points
never occur in the claims). -/
def isWS (c : Char) : Bool :=
  c = ' ' || c = '\t' || c = '\n' || c = '\r' || c = Char.ofNat 11 || c = Char.ofNat 12

/-- Strip leading and trailing JS whitespace (the trimming step of the JS
`ToNumber` coercion on strings). -/
def trimWS (s : Str) : Str :=
  ((s.dropWhile isWS).reverse.dropWhile isWS).reverse

/-- Numeric value of a digit character in radices up to 16; characters
that are digits in no radix get the sentinel 99. -/
def digCharVal (c : Char) : Nat :=
  if c.isDigit then c.toNat - 48
  else if 'a' ≤ c && c ≤ 'f' then c.toNat - 87
  else if 'A' ≤ c && c ≤ 'F' then c.toNat - 55
  else 99

/-- Accumulating radix-`base` value of a digit string. -/
def radixValAux (base : Nat) : Str → Nat → Nat
  | [], acc => acc
  | c :: r, acc => radixValAux base r (acc * base + digCharVal c)

/-- Radix-`base` value of a digit string. -/
def radixVal (base : Nat) (s : Str) : Nat := radixValAux base s 0

/-- Decimal value of a digit string. -/
def decVal (s : Str) : Nat := radixVal 10 s

/-- A JavaScript number: NaN, the infinities, or a finite value (modelled
as an exact rational; the claims never depend on double rounding). -/
inductive JSNum where
  | nan : JSNum
  | posInf : JSNum
  | negInf : JSNum
  | fin : ℚ → JSNum
deriving DecidableEq

/-- `isNaN(x)` on a JS number. -/
def JSNum.isNaN : JSNum → Bool
  | .nan => true
  | _ => false

/-- Split a string at the first `e`/`E` (exponent marker of a JS decimal
literal); returns the part before and, when a marker exists, the part
after it. -/
def splitAtExp : Str → Str × Option Str
  | [] => ([], none)
  | c :: r =>
    if c = 'e' || c = 'E' then ([], some r)
    else
      let p := splitAtExp r
      (c :: p.1, p.2)

/-- Split a string at the first `.`; returns the part before and, when a
dot exists, the part after it. -/
def splitAtDot : Str → Str × Option Str
  | [] => ([], none)
  | c :: r =>
    if c = '.' then ([], some r)
    else
      let p := splitAtDot r
      (c :: p.1, p.2)

/-- Parse the exponent part of a JS decimal literal: optional sign, then a
nonempty digit string. -/
def parseExp : Str → Option Int
  | [] => none
  | '+' :: r => if !r.isEmpty && r.all Char.isDigit then some (decVal r) else none
  | '-' :: r => if !r.isEmpty && r.all Char.isDigit then some (-(decVal r : Int)) else none
  | s => if s.all Char.isDigit then some (decVal s) else none

/-- Parse a JS decimal mantissa: `digits`, `digits.digits`, `.digits` or
`digits.`, with at least one digit overall. -/
def parseDecMantissa (s : Str) : Option ℚ :=
  let p := splitAtDot s
  match p.2 with
  | none =>
    if !p.1.isEmpty && p.1.all Char.isDigit then some (decVal p.1) else none
  | some fp =>
    if !(p.1.isEmpty && fp.isEmpty) && p.1.all Char.isDigit && fp.all Char.isDigit then
      some ((decVal p.1 : ℚ) + (decVal fp : ℚ) / (10 : ℚ) ^ fp.length)
    else none

/-- Parse an unsigned JS decimal literal with optional exponent. -/
def parseUnsignedDec (s : Str) : Option ℚ :=
  let p := splitAtExp s
  match p.2 with
  | none => parseDecMantissa p.1
  | some ex =>
    match parseDecMantissa p.1, parseExp ex with
    | some q, some e => some (q * (10 : ℚ) ^ e)
    | _, _ => none

/-- Parse the part of a JS string numeric literal after the optional sign:
`Infinity` or a decimal literal; anything else is NaN. -/
def parseUnsigned (s : Str) (neg : Bool) : JSNum :=
  if s = toL "Infinity" then (if neg then .negInf else .posInf)
  else
    match parseUnsignedDec s with
    | some q => .fin (if neg then -q else q)
    | none => .nan

/-- A non-decimal (hex/octal/binary) JS integer literal body: nonempty and
all digits of the radix. -/
def parseRadix (base : Nat) (r : Str) : JSNum :=
  if !r.isEmpty && r.all (fun c => digCharVal c < base) then .fin (radixVal base r) else .nan

/-- JS `ToNumber` on a string (the `+bp` coercion in `addUniqueBreakPoint`
and the implicit coercion in `windowWidth > bp`): trim whitespace, empty
becomes 0, then a signed decimal literal, `Infinity`, or a `0x`/`0o`/`0b`
literal; everything else is NaN. -/
def strToNum (s : Str) : JSNum :=
  match trimWS s with
  | [] => .fin 0
  | '0' :: 'x' :: r => parseRadix 16 r
  | '0' :: 'X' :: r => parseRadix 16 r
  | '0' :: 'o' :: r => parseRadix 8 r
  | '0' :: 'O' :: r => parseRadix 8 r
  | '0' :: 'b' :: r => parseRadix 2 r
  | '0' :: 'B' :: r => parseRadix 2 r
  | '+' :: r => parseUnsigned r false
  | '-' :: r => parseUnsigned r true
  | t => parseUnsigned t false

/-- Decimal digit characters of a natural number (fuel-based so that the
definition is structural and kernel-evaluable). -/
def natDigitsAux : Nat → Nat → Str
  | 0, _ => []
  | fuel + 1, n =>
    if n < 10 then [Char.ofNat (48 + n)]
    else natDigitsAux fuel (n / 10) ++ [Char.ofNat (48 + n % 10)]

/-- Decimal digit string of a natural number. -/
def natToDigits (n : Nat) : Str := natDigitsAux (n + 1) n

/-- Fraction digits of `num/den` (`num < den`) by long division, up to
`fuel` digits; terminates early when the remainder is 0.  JS prints the
shortest round-tripping decimal of the double; on the exact rationals in
scope the exact terminating expansion coincides with it. -/
def fracDigits : Nat → Nat → Nat → Str
  | 0, _, _ => []
  | fuel + 1, num, den =>
    if num = 0 then []
    else Char.ofNat (48 + num * 10 / den) :: fracDigits fuel (num * 10 % den) den

/-- JS `ToString` on a number (the `''+bp` coercion). -/
def jsNumToStr : JSNum → Str
  | .nan => toL "NaN"
  | .posInf => toL "Infinity"
  | .negInf => toL "-Infinity"
  | .fin q =>
    let sgn : Str := if q < 0 then ['-'] else []
    let n := q.num.natAbs
    let d := q.den
    let fp := fracDigits 20 (n % d) d
    sgn ++ natToDigits (n / d) ++ (if fp.isEmpty then [] else '.' :: fp)

/-- A JavaScript scalar value that can reach `addUniqueBreakPoint` or
`hasBreakPoint`: a number or a string.  (Array elements are modelled as
scalars; the claims never involve nested arrays.) -/
inductive JSPrim where
  | num : JSNum → JSPrim
  | str : Str → JSPrim
deriving DecidableEq

/-- JS `ToString` on a scalar (`''+bp`): identity on strings, number
printing on numbers. -/
def toStr : JSPrim → Str
  | .num x => jsNumToStr x
  | .str s => s

/-- JS `ToNumber` on a scalar (`+bp`): numbers unchanged, strings
parsed. -/
def toNumber : JSPrim → JSNum
  | .num x => x
  | .str s => strToNum s

/-- The argument of `addBreakPoints`: a single scalar or an array of
scalars (the source checks `typeof bp` for string/number, then
`bp instanceof Array`). -/
inductive JSArg where
  | one : JSPrim → JSArg
  | many : List JSPrim → JSArg
deriving DecidableEq

/-- `hasBreakPoint` (src lines 88-90): `breakPoints.indexOf(''+bp) !== -1`.
The state `breakPoints` is the explicit first argument. -/
def hasBreakPoint (breakPoints : List Str) (bp : JSPrim) : Bool :=
  breakPoints.contains (toStr bp)

/-- `addUniqueBreakPoint` (src lines 54-58): push `''+bp` iff `+bp` is not
NaN and the string is not already present.  Returns the new state. -/
def addUniqueBreakPoint (breakPoints : List Str) (bp : JSPrim) : List Str :=
  if !(toNumber bp).isNaN && !hasBreakPoint breakPoints bp then
    breakPoints ++ [toStr bp]
  else breakPoints

/-- `addBreakPoints` (src lines 68-80): a scalar is added directly, an
array element-wise; the subsequent `updateClasses()` call touches only
the DOM, not the breakpoint state, so the new state is as below. -/
def addBreakPoints (breakPoints : List Str) (bp : JSArg) : List Str :=
  match bp with
  | .one v => addUniqueBreakPoint breakPoints v
  | .many l => l.foldl addUniqueBreakPoint breakPoints

/-- `PREFIXES.LESS_THAN` (src line 32). -/
def LESS_THAN : Str := ['l', 't']

/-- `PREFIXES.GREATER_THAN` (src line 33). -/
def GREATER_THAN : Str := ['g', 't']

/-- `PREFIXES.EQUAL` (src line 34). -/
def EQUAL : Str := ['e']

/-- JS `windowWidth > bp` with `windowWidth` an integer (clientWidth) and
`bp` a string: the string is coerced numerically; any comparison with NaN
is false. -/
def widthGt (w : Int) (x : JSNum) : Bool :=
  match x with
  | .nan => false
  | .posInf => false
  | .negInf => true
  | .fin q => (w : ℚ) > q

/-- JS `windowWidth < bp`, as in `widthGt`. -/
def widthLt (w : Int) (x : JSNum) : Bool :=
  match x with
  | .nan => false
  | .posInf => true
  | .negInf => false
  | .fin q => (w : ℚ) < q

/-- The single class pushed onto `classesToAdd` for breakpoint `bp` at
width `w` (src lines 110-122). -/
def relTok (w : Int) (bp : Str) : Str :=
  if widthGt w (strToNum bp) then GREATER_THAN ++ bp
  else if widthLt w (strToNum bp) then LESS_THAN ++ bp
  else EQUAL ++ bp

/-- The two classes pushed onto `classesToRemove` for breakpoint `bp` at
width `w`, in push order (src lines 110-122). -/
def inactiveToks (w : Int) (bp : Str) : List Str :=
  if widthGt w (strToNum bp) then [LESS_THAN ++ bp, EQUAL ++ bp]
  else if widthLt w (strToNum bp) then [GREATER_THAN ++ bp, EQUAL ++ bp]
  else [LESS_THAN ++ bp, GREATER_THAN ++ bp]

/-- The accumulated `classesToAdd` list (src loop lines 108-123). -/
def addToks (w : Int) (breakPoints : List Str) : List Str :=
  breakPoints.map (relTok w)

/-- The accumulated `classesToRemove` list (src loop lines 108-123). -/
def removeToks (w : Int) (breakPoints : List Str) : List Str :=
  breakPoints.flatMap (inactiveToks w)

/-- JS `indexOf(pat) !== -1` on strings: does `pat` occur as a contiguous
substring of `s`? -/
def containsSub : Str → Str → Bool
  | [], pat => pat.isEmpty
  | c :: cs, pat => pat.isPrefixOf (c :: cs) || containsSub cs pat

/-- JS `s.replace(pat, '')` with a string pattern: remove the first
occurrence of `pat`, or return `s` unchanged if there is none. -/
def replFirst : Str → Str → Str
  | [], _ => []
  | c :: cs, pat =>
    if pat.isPrefixOf (c :: cs) then (c :: cs).drop pat.length
    else c :: replFirst cs pat

/-- The removal loop (src lines 126-128): fold `replace(tok, '')` over
`classesToRemove`. -/
def applyRemovals (current : Str) (toks : List Str) : Str :=
  toks.foldl replFirst current

/-- The addition loop (src lines 130-134): append `' ' + tok` unless the
token already occurs as a substring. -/
def applyAdds (current : Str) (toks : List Str) : Str :=
  toks.foldl (fun cur t => if containsSub cur t then cur else cur ++ ' ' :: t) current

/-- Regex `replace(/\s+/g, ' ')`: each maximal whitespace run becomes one
space.  The flag records whether the previous character was part of a
run already collapsed. -/
def collapseAux : Str → Bool → Str
  | [], _ => []
  | c :: cs, inRun =>
    if isWS c then
      if inRun then collapseAux cs true else ' ' :: collapseAux cs true
    else c :: collapseAux cs false

/-- The final whitespace collapse (src line 135). -/
def collapseWS (s : Str) : Str := collapseAux s false

/-- `updateClasses` (src lines 97-136): from the viewport width, the
breakpoint state and the current class attribute of the root element,
the class attribute that is assigned back. -/
def updateClasses (w : Int) (breakPoints : List Str) (current : Str) : Str :=
  collapseWS (applyAdds (applyRemovals current (removeToks w breakPoints)) (addToks w breakPoints))

/-- Observer: the whitespace-separated tokens of a class string (the
accumulator carries the current token reversed). -/
def tokensAux : Str → Str → List Str
  | [], acc => if acc.isEmpty then [] else [acc.reverse]
  | c :: cs, acc =>
    if isWS c then
      if acc.isEmpty then tokensAux cs [] else acc.reverse :: tokensAux cs []
    else tokensAux cs (c :: acc)

/-- The whitespace-separated tokens of a class string. -/
def tokensOf (s : Str) : List Str := tokensAux s []

/-- A nonempty all-digit breakpoint string. -/
def isDigitStr (b : Str) : Bool := !b.isEmpty && b.all Char.isDigit

/-- No breakpoint string in the list is a prefix of another (and hence no
two are equal). -/
def noPreAmong : List Str → Bool
  | [] => true
  | b :: r => r.all (fun b' => !b.isPrefixOf b' && !b'.isPrefixOf b) && noPreAmong r

/-- No relation string of any listed breakpoint occurs as a substring of
`s`. -/
def cleanFor (s : Str) (breakPoints : List Str) : Bool :=
  breakPoints.all fun b =>
    !containsSub s (LESS_THAN ++ b) && !containsSub s (GREATER_THAN ++ b) &&
      !containsSub s (EQUAL ++ b)

/-- Is `t` one of the three relation tokens of some listed breakpoint? -/
def isRelTok (breakPoints : List Str) (t : Str) : Bool :=
  breakPoints.any fun b =>
    t == LESS_THAN ++ b || t == GREATER_THAN ++ b || t == EQUAL ++ b

/-! ## Substring and replacement lemmas -/

theorem preToSub {p s : Str} (h : p <+: s) : p <:+: s := by
  obtain ⟨t, ht⟩ := h
  exact ⟨[], t, by simpa using ht⟩

theorem subConsOf {p s : Str} {c : Char} (h : p <:+: s) : p <:+: c :: s := by
  obtain ⟨x, y, hxy⟩ := h
  exact ⟨c :: x, y, by simp [← hxy]⟩

theorem sub_cons_iff {p s : Str} {c : Char} : p <:+: c :: s ↔ p <+: c :: s ∨ p <:+: s := by
  constructor
  · rintro ⟨x, y, h⟩
    cases x with
    | nil => exact Or.inl ⟨y, by simpa using h⟩
    | cons d x' =>
      have h' : d = c ∧ x' ++ p ++ y = s := by simpa using h
      exact Or.inr ⟨x', y, h'.2⟩
  · rintro (⟨t, ht⟩ | h)
    · exact ⟨[], t, by simpa using ht⟩
    · exact subConsOf h

theorem containsSub_iff (s p : Str) : containsSub s p = true ↔ p <:+: s := by
  induction s with
  | nil => simp [containsSub]
  | cons c cs ih =>
    simp only [containsSub, Bool.or_eq_true, ih]
    rw [sub_cons_iff]
    simp

theorem replFirst_no (s p : Str) (h : ¬ p <:+: s) : replFirst s p = s := by
  induction s with
  | nil => rfl
  | cons c cs ih =>
    have hpre : ¬ (p <+: c :: cs) := fun hp => h (preToSub hp)
    have hsub : ¬ p <:+: cs := fun h' => h (subConsOf h')
    simp only [replFirst]
    rw [if_neg (by simpa using hpre), ih hsub]

theorem replFirst_yes (s p : Str) (h : p <:+: s) :
    ∃ a b : Str, a ++ p ++ b = s ∧ replFirst s p = a ++ b ∧
      ∀ a' b' : Str, a' ++ p ++ b' = s → a.length ≤ a'.length := by
  induction s with
  | nil =>
    have hp : p = [] := by simpa using h
    subst hp
    exact ⟨[], [], rfl, rfl, fun _ _ _ => Nat.zero_le _⟩
  | cons c cs ih =>
    by_cases hp : p <+: c :: cs
    · obtain ⟨t, ht⟩ := hp
      refine ⟨[], t, by simpa using ht, ?_, fun a' b' _ => Nat.zero_le _⟩
      simp only [replFirst]
      rw [if_pos (by simpa using (⟨t, ht⟩ : p <+: c :: cs)), ← ht]
      simp [List.drop_left p t]
    · have hs : p <:+: cs := by
        rcases sub_cons_iff.mp h with h1 | h2
        · exact absurd h1 hp
        · exact h2
      obtain ⟨a, b, hab, hrepl, hmin⟩ := ih hs
      refine ⟨c :: a, b, by simp [← hab], ?_, ?_⟩
      · simp only [replFirst]
        rw [if_neg (by simpa using hp), hrepl]
        simp
      · rintro a' b' h'
        cases a' with
        | nil =>
          exact absurd ⟨b', by simpa using h'⟩ hp
        | cons d a'' =>
          have h'' : d = c ∧ a'' ++ p ++ b' = cs := by simpa using h'
          have := hmin a'' b' h''.2
          simpa using Nat.succ_le_succ this

theorem applyRemovals_id (cur : Str) (toks : List Str)
    (h : ∀ p ∈ toks, ¬ p <:+: cur) : applyRemovals cur toks = cur := by
  induction toks with
  | nil => rfl
  | cons p r ih =>
    have h1 : replFirst cur p = cur := replFirst_no cur p (h p (by simp))
    have h2 : applyRemovals cur r = cur := ih (fun q hq => h q (by simp [hq]))
    simpa [applyRemovals, h1] using h2

/-! ## Token-splitting lemmas -/

theorem subAppendRight {p s : Str} (u : Str) (h : p <:+: s) : p <:+: s ++ u := by
  obtain ⟨x, y, hxy⟩ := h
  exact ⟨x, y ++ u, by simp [← hxy]⟩

theorem subAppendLeft {p s : Str} (u : Str) (h : p <:+: s) : p <:+: u ++ s := by
  obtain ⟨x, y, hxy⟩ := h
  exact ⟨u ++ x, y, by simp [← hxy]⟩

theorem tokensAux_space (a b : Str) : ∀ acc,
    tokensAux (a ++ ' ' :: b) acc = tokensAux a acc ++ tokensAux b [] := by
  induction a with
  | nil =>
    intro acc
    have hws : isWS ' ' = true := by decide
    by_cases hacc : acc = [] <;> simp [tokensAux, hws, hacc]
  | cons c a' ih =>
    intro acc
    by_cases hws : isWS c = true
    · by_cases hacc : acc = [] <;> simp [tokensAux, hws, hacc, ih]
    · simp only [Bool.not_eq_true] at hws
      simp [tokensAux, hws, ih]

theorem tokensAux_noWS (t : Str) : ∀ acc, (∀ c ∈ t, isWS c = false) →
    tokensAux t acc = if (acc.reverse ++ t).isEmpty then [] else [acc.reverse ++ t] := by
  induction t with
  | nil =>
    intro acc _
    by_cases hacc : acc = [] <;> simp [tokensAux, hacc]
  | cons c t' ih =>
    intro acc h
    have hc : isWS c = false := h c (by simp)
    have h' : ∀ c' ∈ t', isWS c' = false := fun c' hc' => h c' (by simp [hc'])
    simp [tokensAux, hc, ih (c :: acc) h']

theorem tokensOf_single (t : Str) (h1 : t ≠ []) (h2 : ∀ c ∈ t, isWS c = false) :
    tokensOf t = [t] := by
  have := tokensAux_noWS t [] h2
  simpa [tokensOf, h1] using this

theorem mem_tokensAux_sub (s : Str) : ∀ acc t, t ∈ tokensAux s acc → t <:+: acc.reverse ++ s := by
  induction s with
  | nil =>
    intro acc t ht
    by_cases hacc : acc = []
    · simp [tokensAux, hacc] at ht
    · simp [tokensAux, hacc] at ht
      exact ⟨[], [], by simp [ht]⟩
  | cons c cs ih =>
    intro acc t ht
    by_cases hws : isWS c = true
    · by_cases hacc : acc = []
      · simp [tokensAux, hws, hacc] at ht
        simpa [hacc] using subConsOf (ih [] t (by simpa [tokensOf] using ht))
      · simp [tokensAux, hws, hacc] at ht
        rcases ht with ht | ht
        · exact ⟨[], c :: cs, by simp [ht]⟩
        · exact subAppendLeft _ (subConsOf (ih [] t (by simpa using ht)))
    · simp only [Bool.not_eq_true] at hws
      simp only [tokensAux, hws, Bool.false_eq_true, if_neg] at ht
      have := ih (c :: acc) t (by simpa using ht)
      simpa using this

theorem mem_tokensOf_sub {s t : Str} (h : t ∈ tokensOf s) : t <:+: s := by
  simpa using mem_tokensAux_sub s [] t h

theorem collapse_tokensAux (s : Str) :
    (∀ acc, tokensAux (collapseAux s false) acc = tokensAux s acc) ∧
      tokensAux (collapseAux s true) [] = tokensAux s [] := by
  induction s with
  | nil => exact ⟨fun _ => rfl, rfl⟩
  | cons c cs ih =>
    by_cases hws : isWS c = true
    · constructor
      · intro acc
        have hsp : isWS ' ' = true := by decide
        by_cases hacc : acc = [] <;>
          simp [collapseAux, tokensAux, hws, hsp, hacc, ih.2]
      · simp [collapseAux, tokensAux, hws, ih.2]
    · simp only [Bool.not_eq_true] at hws
      constructor
      · intro acc
        simp [collapseAux, tokensAux, hws, ih.1 (c :: acc)]
      · simp [collapseAux, tokensAux, hws, ih.1 [c]]

theorem tokensOf_collapseWS (s : Str) : tokensOf (collapseWS s) = tokensOf s :=
  (collapse_tokensAux s).1 []

theorem pre_append_cases (p : Str) : ∀ u v : Str, p <+: u ++ v →
    p <+: u ∨ ∃ w, p = u ++ w ∧ w <+: v := by
  induction p with
  | nil => intro u v _; exact Or.inl ⟨u, rfl⟩
  | cons d p' ih =>
    intro u v h
    cases u with
    | nil => exact Or.inr ⟨d :: p', rfl, h⟩
    | cons c u' =>
      have h' : d = c ∧ p' <+: u' ++ v := by simpa using h
      rcases ih u' v h'.2 with h1 | ⟨w, hw, hwv⟩
      · exact Or.inl (by simp [h'.1, h1])
      · exact Or.inr ⟨w, by simp [h'.1, hw], hwv⟩

theorem space_sub_of {p : Str} (hp : ' ' ∉ p) : ∀ a b : Str,
    p <:+: a ++ ' ' :: b → p <:+: a ∨ p <:+: b := by
  intro a
  induction a with
  | nil =>
    intro b h
    rcases sub_cons_iff.mp (by simpa using h) with h1 | h2
    · cases p with
      | nil => exact Or.inl ⟨[], [], rfl⟩
      | cons d p' =>
        have hd : d = ' ' ∧ p' <+: b := by simpa using h1
        exact absurd (by simp [hd.1]) hp
    · exact Or.inr h2
  | cons c a' ih =>
    intro b h
    rcases sub_cons_iff.mp (by simpa using h) with h1 | h2
    · rcases pre_append_cases p (c :: a') (' ' :: b) (by simpa using h1) with hu | ⟨w, hw, hwv⟩
      · exact Or.inl (preToSub hu)
      · cases w with
        | nil =>
          rw [hw, List.append_nil]
          exact Or.inl ⟨[], [], by simp⟩
        | cons e w' =>
          have he : e = ' ' ∧ w' <+: b := by simpa using hwv
          exact absurd (by simp [hw, he.1]) hp
    · rcases ih b h2 with h3 | h4
      · exact Or.inl (subConsOf h3)
      · exact Or.inr h4

theorem space_sub_iff {p : Str} (hp : ' ' ∉ p) (a b : Str) :
    p <:+: a ++ ' ' :: b ↔ p <:+: a ∨ p <:+: b := by
  constructor
  · exact space_sub_of hp a b
  · rintro (h | h)
    · obtain ⟨x, y, hxy⟩ := h
      exact ⟨x, y ++ ' ' :: b, by simp [← hxy]⟩
    · simpa [List.append_assoc] using subAppendLeft (a ++ [' ']) h

theorem sub_join_iff {p : Str} (hp : ' ' ∉ p) : ∀ (L : List Str) (cur : Str),
    p <:+: cur ++ L.flatMap (fun t => ' ' :: t) ↔ p <:+: cur ∨ ∃ t ∈ L, p <:+: t := by
  intro L
  induction L with
  | nil => intro cur; simp
  | cons t L' ih =>
    intro cur
    have hshape : cur ++ (t :: L').flatMap (fun t => ' ' :: t) =
        cur ++ ' ' :: (t ++ L'.flatMap (fun t => ' ' :: t)) := by simp
    rw [hshape, space_sub_iff hp, ih t]
    constructor
    · rintro (h | h | ⟨u, hu, hu2⟩)
      · exact Or.inl h
      · exact Or.inr ⟨t, by simp, h⟩
      · exact Or.inr ⟨u, by simp [hu], hu2⟩
    · rintro (h | ⟨u, hu, hu2⟩)
      · exact Or.inl h
      · rcases List.mem_cons.mp hu with rfl | hu'
        · exact Or.inr (Or.inl hu2)
        · exact Or.inr (Or.inr ⟨u, hu', hu2⟩)

theorem applyAdds_eq : ∀ (L : List Str) (cur : Str),
    (∀ t ∈ L, ' ' ∉ t ∧ ¬ t <:+: cur) → L.Pairwise (fun t t' => ¬ t' <:+: t) →
    applyAdds cur L = cur ++ L.flatMap (fun t => ' ' :: t) := by
  intro L
  induction L with
  | nil => intro cur _ _; simp [applyAdds]
  | cons t L' ih =>
    intro cur h hpw
    have ht := h t (by simp)
    have hnot : containsSub cur t = false := by
      rw [Bool.eq_false_iff]
      intro hc
      exact ht.2 ((containsSub_iff cur t).mp hc)
    have hstep : applyAdds cur (t :: L') = applyAdds (cur ++ ' ' :: t) L' := by
      simp [applyAdds, hnot]
    rw [hstep, ih (cur ++ ' ' :: t) ?_ (List.Pairwise.sublist (by simp) hpw)]
    · simp
    · intro t' ht'
      have h1 := h t' (by simp [ht'])
      refine ⟨h1.1, ?_⟩
      rw [space_sub_iff h1.1]
      rintro (hc | hc)
      · exact h1.2 hc
      · exact (List.rel_of_pairwise_cons hpw ht') hc

theorem tokensOf_join : ∀ (L : List Str) (cur : Str),
    (∀ t ∈ L, t ≠ [] ∧ ∀ c ∈ t, isWS c = false) →
    tokensOf (cur ++ L.flatMap (fun t => ' ' :: t)) = tokensOf cur ++ L := by
  intro L
  induction L with
  | nil => intro cur _; simp
  | cons t L' ih =>
    intro cur h
    have hshape : cur ++ (t :: L').flatMap (fun t => ' ' :: t) =
        cur ++ ' ' :: (t ++ L'.flatMap (fun t => ' ' :: t)) := by simp
    have ht := h t (by simp)
    rw [hshape]
    show tokensAux (cur ++ ' ' :: (t ++ L'.flatMap (fun t => ' ' :: t))) [] = tokensOf cur ++ t :: L'
    rw [tokensAux_space]
    have h2 : tokensOf (t ++ L'.flatMap (fun t => ' ' :: t)) = tokensOf t ++ L' :=
      ih t (fun u hu => h u (by simp [hu]))
    rw [show tokensAux (t ++ L'.flatMap (fun t => ' ' :: t)) [] =
        tokensOf (t ++ L'.flatMap (fun t => ' ' :: t)) from rfl, h2,
      tokensOf_single t ht.1 ht.2]
    rfl

/-! ## Relation-token lemmas -/

theorem ws_not_digit {c : Char} (h : isWS c = true) : c.isDigit = false := by
  have h' : c = ' ' ∨ c = '\t' ∨ c = '\n' ∨ c = '\r' ∨ c = Char.ofNat 11 ∨ c = Char.ofNat 12 := by
    simpa [isWS, or_assoc] using h
  rcases h' with rfl | rfl | rfl | rfl | rfl | rfl <;> decide

theorem digit_notWS {c : Char} (h : c.isDigit = true) : isWS c = false := by
  by_cases hw : isWS c = true
  · rw [ws_not_digit hw] at h
    cases h
  · simpa using hw

theorem char_not_mem_digits {b : Str} (hb : b.all Char.isDigit = true) {c : Char}
    (hc : c.isDigit = false) : c ∉ b := by
  intro hmem
  have := List.all_eq_true.mp hb c hmem
  rw [hc] at this
  cases this

theorem subSubset {p s : Str} (h : p <:+: s) : p ⊆ s := by
  obtain ⟨x, y, hxy⟩ := h
  intro a ha
  rw [← hxy]
  simp [ha]

theorem sub_head_pre (c : Char) (p' s : Str) (h : (c :: p') <:+: c :: s)
    (hnotin : c ∉ s) : (c :: p') <+: c :: s := by
  obtain ⟨x, y, hxy⟩ := h
  cases x with
  | nil => exact ⟨y, by simpa using hxy⟩
  | cons d x' =>
    have h' : d = c ∧ x' ++ (c :: p') ++ y = s := by simpa using hxy
    have hmem : c ∈ s := by
      rw [← h'.2]
      simp
    exact absurd hmem hnotin

theorem not_mem_cons2 {c d e : Char} {b' : Str} (h1 : c ≠ d) (h2 : c ≠ e)
    (h3 : c ∉ b') : c ∉ d :: e :: b' := by
  intro h
  rcases List.mem_cons.mp h with h' | h'
  · exact h1 h'
  · rcases List.mem_cons.mp h' with h'' | h''
    · exact h2 h''
    · exact h3 h''

theorem not_mem_cons1 {c d : Char} {b' : Str} (h1 : c ≠ d) (h3 : c ∉ b') :
    c ∉ d :: b' := by
  intro h
  rcases List.mem_cons.mp h with h' | h'
  · exact h1 h'
  · exact h3 h'

theorem relStr_sub_cases {b b' : Str} (hb' : b'.all Char.isDigit = true)
    {pre pre' : Str}
    (hpre : pre = LESS_THAN ∨ pre = GREATER_THAN ∨ pre = EQUAL)
    (hpre' : pre' = LESS_THAN ∨ pre' = GREATER_THAN ∨ pre' = EQUAL)
    (h : (pre ++ b) <:+: (pre' ++ b')) : pre = pre' ∧ b <+: b' := by
  have hl : ('l' : Char) ∉ b' := char_not_mem_digits hb' (by decide)
  have hg : ('g' : Char) ∉ b' := char_not_mem_digits hb' (by decide)
  have he : ('e' : Char) ∉ b' := char_not_mem_digits hb' (by decide)
  rcases hpre with rfl | rfl | rfl <;> rcases hpre' with rfl | rfl | rfl
  · refine ⟨rfl, ?_⟩
    have hp := sub_head_pre 'l' ('t' :: b) ('t' :: b')
      (by simpa [LESS_THAN] using h) (not_mem_cons1 (by decide) hl)
    simpa using hp
  · exfalso
    have hmem : ('l' : Char) ∈ GREATER_THAN ++ b' :=
      subSubset h (by simp [LESS_THAN])
    exact hl (by simpa [GREATER_THAN] using hmem)
  · exfalso
    have hmem : ('l' : Char) ∈ EQUAL ++ b' :=
      subSubset h (by simp [LESS_THAN])
    exact hl (by simpa [EQUAL] using hmem)
  · exfalso
    have hmem : ('g' : Char) ∈ LESS_THAN ++ b' :=
      subSubset h (by simp [GREATER_THAN])
    exact hg (by simpa [LESS_THAN] using hmem)
  · refine ⟨rfl, ?_⟩
    have hp := sub_head_pre 'g' ('t' :: b) ('t' :: b')
      (by simpa [GREATER_THAN] using h) (not_mem_cons1 (by decide) hg)
    simpa using hp
  · exfalso
    have hmem : ('g' : Char) ∈ EQUAL ++ b' :=
      subSubset h (by simp [GREATER_THAN])
    exact hg (by simpa [EQUAL] using hmem)
  · exfalso
    have hmem : ('e' : Char) ∈ LESS_THAN ++ b' :=
      subSubset h (by simp [EQUAL])
    exact he (by simpa [LESS_THAN] using hmem)
  · exfalso
    have hmem : ('e' : Char) ∈ GREATER_THAN ++ b' :=
      subSubset h (by simp [EQUAL])
    exact he (by simpa [GREATER_THAN] using hmem)
  · refine ⟨rfl, ?_⟩
    have hp := sub_head_pre 'e' b b'
      (by simpa [EQUAL] using h) he
    simpa using hp

theorem relTok_shape (w : Int) (b : Str) :
    ∃ pre, (pre = LESS_THAN ∨ pre = GREATER_THAN ∨ pre = EQUAL) ∧ relTok w b = pre ++ b := by
  unfold relTok
  split_ifs with h1 h2
  · exact ⟨GREATER_THAN, Or.inr (Or.inl rfl), rfl⟩
  · exact ⟨LESS_THAN, Or.inl rfl, rfl⟩
  · exact ⟨EQUAL, Or.inr (Or.inr rfl), rfl⟩

theorem inactive_shape {w : Int} {b t : Str} (ht : t ∈ inactiveToks w b) :
    t = LESS_THAN ++ b ∨ t = GREATER_THAN ++ b ∨ t = EQUAL ++ b := by
  unfold inactiveToks at ht
  split_ifs at ht <;> simp at ht <;> tauto

theorem pre_chars {pre : Str} (hpre : pre = LESS_THAN ∨ pre = GREATER_THAN ∨ pre = EQUAL) :
    pre ≠ [] ∧ ∀ c ∈ pre, isWS c = false := by
  rcases hpre with rfl | rfl | rfl <;>
    refine ⟨by simp [LESS_THAN, GREATER_THAN, EQUAL], ?_⟩ <;>
    · intro c hc
      simp only [LESS_THAN, GREATER_THAN, EQUAL, List.mem_cons, List.mem_singleton,
        List.not_mem_nil, or_false] at hc
      rcases hc with rfl | rfl <;> decide

theorem relStr_chars {b pre : Str} (hb : isDigitStr b = true)
    (hpre : pre = LESS_THAN ∨ pre = GREATER_THAN ∨ pre = EQUAL) :
    pre ++ b ≠ [] ∧ (∀ c ∈ pre ++ b, isWS c = false) ∧ ' ' ∉ pre ++ b := by
  have hdig : b.all Char.isDigit = true := by
    simp [isDigitStr, Bool.and_eq_true] at hb
    exact List.all_eq_true.mpr fun c hc => hb.2 c hc
  have hp := pre_chars hpre
  have hchars : ∀ c ∈ pre ++ b, isWS c = false := by
    intro c hc
    rcases List.mem_append.mp hc with hc | hc
    · exact hp.2 c hc
    · exact digit_notWS (List.all_eq_true.mp hdig c hc)
  refine ⟨?_, hchars, ?_⟩
  · intro hnil
    rcases List.append_eq_nil.mp hnil with ⟨h1, _⟩
    exact hp.1 h1
  · intro hmem
    have := hchars ' ' hmem
    rw [show isWS ' ' = true from by decide] at this
    cases this

theorem relTok_chars {w : Int} {b : Str} (hb : isDigitStr b = true) :
    relTok w b ≠ [] ∧ (∀ c ∈ relTok w b, isWS c = false) ∧ ' ' ∉ relTok w b := by
  obtain ⟨pre, hpre, hsh⟩ := relTok_shape w b
  rw [hsh]
  exact relStr_chars hb hpre

theorem noPre_head {b : Str} {r : List Str} (hnp : noPreAmong (b :: r) = true) :
    (∀ b' ∈ r, ¬ b <+: b' ∧ ¬ b' <+: b) ∧ noPreAmong r = true := by
  simp only [noPreAmong, Bool.and_eq_true, List.all_eq_true] at hnp
  refine ⟨fun b' hb' => ?_, hnp.2⟩
  have := hnp.1 b' hb'
  simp only [Bool.and_eq_true, Bool.not_eq_true'] at this
  constructor
  · intro hpre
    have h1 := this.1
    rw [(by simp : b.isPrefixOf b' = true ↔ b <+: b').mpr hpre] at h1
    cases h1
  · intro hpre
    have h2 := this.2
    rw [(by simp : b'.isPrefixOf b = true ↔ b' <+: b).mpr hpre] at h2
    cases h2

theorem addToks_pairwise {w : Int} {bps : List Str} (hd : bps.all isDigitStr = true)
    (hnp : noPreAmong bps = true) :
    (addToks w bps).Pairwise (fun t t' => ¬ t' <:+: t) := by
  induction bps with
  | nil => simp [addToks]
  | cons b r ih =>
    have hd' : isDigitStr b = true ∧ r.all isDigitStr = true := by simpa using hd
    have hnp' := noPre_head hnp
    have hmain : addToks w (b :: r) = relTok w b :: addToks w r := by simp [addToks]
    rw [hmain, List.pairwise_cons]
    constructor
    · intro t' ht' hsub
      simp only [addToks, List.mem_map] at ht'
      obtain ⟨b', hb', rfl⟩ := ht'
      obtain ⟨pre, hpre, hsh⟩ := relTok_shape w b
      obtain ⟨pre', hpre', hsh'⟩ := relTok_shape w b'
      rw [hsh, hsh'] at hsub
      have hbdig : b.all Char.isDigit = true := by
        have := hd'.1
        simp [isDigitStr, Bool.and_eq_true] at this
        exact List.all_eq_true.mpr fun c hc => this.2 c hc
      have := relStr_sub_cases hbdig hpre' hpre hsub
      exact (hnp'.1 b' hb').2 this.2
    · exact ih hd'.2 hnp'.2

theorem cleanFor_spec {s : Str} {bps : List Str} (hcl : cleanFor s bps = true) :
    ∀ b ∈ bps, ¬ (LESS_THAN ++ b) <:+: s ∧ ¬ (GREATER_THAN ++ b) <:+: s ∧
      ¬ (EQUAL ++ b) <:+: s := by
  intro b hb
  have h := List.all_eq_true.mp hcl b hb
  simp only [Bool.and_eq_true, Bool.not_eq_true'] at h
  refine ⟨?_, ?_, ?_⟩ <;> intro hsub
  · rw [(containsSub_iff s _).mpr hsub] at h
    simp at h
  · rw [(containsSub_iff s _).mpr hsub] at h
    simp at h
  · rw [(containsSub_iff s _).mpr hsub] at h
    simp at h

theorem removeToks_mem {w : Int} {bps : List Str} {p : Str} (hp : p ∈ removeToks w bps) :
    ∃ b ∈ bps, p = LESS_THAN ++ b ∨ p = GREATER_THAN ++ b ∨ p = EQUAL ++ b := by
  simp only [removeToks, List.mem_flatMap] at hp
  obtain ⟨b, hb, hmem⟩ := hp
  exact ⟨b, hb, inactive_shape hmem⟩

theorem updateClasses_tokens (w : Int) (bps : List Str) (initial : Str)
    (hd : bps.all isDigitStr = true) (hnp : noPreAmong bps = true)
    (hcl : cleanFor initial bps = true) :
    tokensOf (updateClasses w bps initial) = tokensOf initial ++ addToks w bps := by
  have hrem : applyRemovals initial (removeToks w bps) = initial := by
    apply applyRemovals_id
    intro p hp
    obtain ⟨b, hb, hcases⟩ := removeToks_mem hp
    have hc := cleanFor_spec hcl b hb
    rcases hcases with rfl | rfl | rfl
    exacts [hc.1, hc.2.1, hc.2.2]
  have hadds : applyAdds initial (addToks w bps) =
      initial ++ (addToks w bps).flatMap (fun t => ' ' :: t) := by
    apply applyAdds_eq
    · intro t ht
      simp only [addToks, List.mem_map] at ht
      obtain ⟨b, hb, rfl⟩ := ht
      have hb_dig : isDigitStr b = true := List.all_eq_true.mp hd b hb
      refine ⟨(relTok_chars hb_dig).2.2, ?_⟩
      have hc := cleanFor_spec hcl b hb
      obtain ⟨pre, hpre3, hsh⟩ := relTok_shape w b
      rw [hsh]
      rcases hpre3 with rfl | rfl | rfl
      exacts [hc.1, hc.2.1, hc.2.2]
    · exact addToks_pairwise hd hnp
  show tokensOf (collapseWS (applyAdds (applyRemovals initial (removeToks w bps)) (addToks w bps))) = _
  rw [tokensOf_collapseWS, hrem, hadds]
  apply tokensOf_join
  intro t ht
  simp only [addToks, List.mem_map] at ht
  obtain ⟨b, hb, rfl⟩ := ht
  have hb_dig := List.all_eq_true.mp hd b hb
  exact ⟨(relTok_chars hb_dig).1, (relTok_chars hb_dig).2.1⟩

/-! ## Breakpoint-set lemmas -/

theorem hasBreakPoint_iff (s : List Str) (v : JSPrim) :
    hasBreakPoint s v = true ↔ toStr v ∈ s := by
  simp [hasBreakPoint]

theorem addUnique_nan {s : List Str} {v : JSPrim} (h : (toNumber v).isNaN = true) :
    addUniqueBreakPoint s v = s := by
  simp [addUniqueBreakPoint, h]

theorem addUnique_mem {s : List Str} {v : JSPrim} (h : (toNumber v).isNaN = false) :
    toStr v ∈ addUniqueBreakPoint s v := by
  by_cases hc : hasBreakPoint s v = true
  · simp only [addUniqueBreakPoint, h, hc]
    simpa using (hasBreakPoint_iff s v).mp hc
  · have hc' : hasBreakPoint s v = false := by simpa using hc
    simp [addUniqueBreakPoint, h, hc']

theorem addUnique_pre (s : List Str) (v : JSPrim) : s <+: addUniqueBreakPoint s v := by
  unfold addUniqueBreakPoint
  split_ifs
  · exact ⟨[toStr v], rfl⟩
  · exact ⟨[], by simp⟩

theorem addUnique_entries {s : List Str} {v : JSPrim} {b : Str}
    (hb : b ∈ addUniqueBreakPoint s v) :
    b ∈ s ∨ (b = toStr v ∧ (toNumber v).isNaN = false) := by
  unfold addUniqueBreakPoint at hb
  split_ifs at hb with hcond
  · rcases List.mem_append.mp hb with h | h
    · exact Or.inl h
    · have hnan : (toNumber v).isNaN = false := by
        rcases Bool.and_eq_true _ _ |>.mp hcond with ⟨h1, _⟩
        simpa using h1
      exact Or.inr ⟨by simpa using h, hnan⟩
  · exact Or.inl hb

theorem addUnique_nodup {s : List Str} {v : JSPrim} (h : s.Nodup) :
    (addUniqueBreakPoint s v).Nodup := by
  unfold addUniqueBreakPoint
  split_ifs with hcond
  · have hnotmem : toStr v ∉ s := by
      rcases Bool.and_eq_true _ _ |>.mp hcond with ⟨_, h2⟩
      intro hmem
      rw [(hasBreakPoint_iff s v).mpr hmem] at h2
      simp at h2
    simp [List.nodup_append, h, hnotmem]
  · exact h

theorem foldl_addUnique_pre (l : List JSPrim) : ∀ s : List Str,
    s <+: l.foldl addUniqueBreakPoint s := by
  induction l with
  | nil => intro s; exact ⟨[], by simp⟩
  | cons v r ih =>
    intro s
    exact List.IsPrefix.trans (addUnique_pre s v) (ih (addUniqueBreakPoint s v))

theorem foldl_addUnique_nodup (l : List JSPrim) : ∀ s : List Str, s.Nodup →
    (l.foldl addUniqueBreakPoint s).Nodup := by
  induction l with
  | nil => intro s h; exact h
  | cons v r ih => intro s h; exact ih _ (addUnique_nodup h)

theorem foldl_addUnique_entries (l : List JSPrim) : ∀ (s : List Str) (b : Str),
    b ∈ l.foldl addUniqueBreakPoint s →
    b ∈ s ∨ ∃ v ∈ l, b = toStr v ∧ (toNumber v).isNaN = false := by
  induction l with
  | nil => intro s b hb; exact Or.inl hb
  | cons v r ih =>
    intro s b hb
    rcases ih _ b hb with h | ⟨u, hu, he⟩
    · rcases addUnique_entries h with h' | h'
      · exact Or.inl h'
      · exact Or.inr ⟨v, by simp, h'⟩
    · exact Or.inr ⟨u, by simp [hu], he⟩

theorem addBP_pre (s : List Str) (arg : JSArg) : s <+: addBreakPoints s arg := by
  cases arg with
  | one v => exact addUnique_pre s v
  | many l => exact foldl_addUnique_pre l s

theorem addBP_nodup {s : List Str} (arg : JSArg) (h : s.Nodup) :
    (addBreakPoints s arg).Nodup := by
  cases arg with
  | one v => exact addUnique_nodup h
  | many l => exact foldl_addUnique_nodup l s h

theorem addBP_entries {s : List Str} {arg : JSArg} {b : Str}
    (hb : b ∈ addBreakPoints s arg) :
    b ∈ s ∨ ∃ v : JSPrim, b = toStr v ∧ (toNumber v).isNaN = false := by
  cases arg with
  | one v =>
    rcases addUnique_entries hb with h | h
    · exact Or.inl h
    · exact Or.inr ⟨v, h⟩
  | many l =>
    rcases foldl_addUnique_entries l s b hb with h | ⟨v, _, hv⟩
    · exact Or.inl h
    · exact Or.inr ⟨v, hv⟩

/-! ## Printer/parser round-trip lemmas -/

theorem digit_ne {c d : Char} (hc : c.isDigit = true) (hd : d.isDigit = false) : c ≠ d := by
  intro h
  rw [h] at hc
  rw [hc] at hd
  cases hd

theorem digitChar_isDigit {m : Nat} (hm : m < 10) : (Char.ofNat (48 + m)).isDigit = true := by
  interval_cases m <;> decide

theorem natDigitsAux_digits : ∀ fuel n : Nat, ∀ c ∈ natDigitsAux fuel n, c.isDigit = true := by
  intro fuel
  induction fuel with
  | zero => intro n c hc; simp [natDigitsAux] at hc
  | succ f ih =>
    intro n c hc
    simp only [natDigitsAux] at hc
    split_ifs at hc with h
    · simp at hc
      subst hc
      exact digitChar_isDigit h
    · rcases List.mem_append.mp hc with h1 | h1
      · exact ih _ c h1
      · simp at h1
        subst h1
        exact digitChar_isDigit (Nat.mod_lt _ (by decide))

theorem natToDigits_digits {n : Nat} : ∀ c ∈ natToDigits n, c.isDigit = true :=
  natDigitsAux_digits (n + 1) n

theorem natToDigits_ne_nil (n : Nat) : natToDigits n ≠ [] := by
  unfold natToDigits natDigitsAux
  split_ifs <;> simp

theorem fracDigits_digits : ∀ fuel num den : Nat, 0 < den → num < den →
    ∀ c ∈ fracDigits fuel num den, c.isDigit = true := by
  intro fuel
  induction fuel with
  | zero => intro num den _ _ c hc; simp [fracDigits] at hc
  | succ f ih =>
    intro num den hden hnd c hc
    simp only [fracDigits] at hc
    split_ifs at hc with h
    · simp at hc
    · rcases List.mem_cons.mp hc with h1 | h1
      · subst h1
        apply digitChar_isDigit
        have hlt : num * 10 < 10 * den := by
          calc num * 10 < den * 10 := by
                exact Nat.mul_lt_mul_of_lt_of_le hnd (Nat.le_refl 10) (by decide)
            _ = 10 * den := Nat.mul_comm den 10
        exact (Nat.div_lt_iff_lt_mul hden).mpr hlt
      · exact ih _ _ hden (Nat.mod_lt _ hden) c h1

theorem splitAtExp_none : ∀ s : Str, 'e' ∉ s → 'E' ∉ s → splitAtExp s = (s, none) := by
  intro s
  induction s with
  | nil => intro _ _; rfl
  | cons c r ih =>
    intro h1 h2
    simp only [List.mem_cons, not_or] at h1 h2
    have hc1 : (c = 'e') = False := by
      simp only [eq_iff_iff, iff_false]
      exact fun h => h1.1 h.symm
    have hc2 : (c = 'E') = False := by
      simp only [eq_iff_iff, iff_false]
      exact fun h => h2.1 h.symm
    simp [splitAtExp, hc1, hc2, ih h1.2 h2.2]

theorem splitAtDot_none : ∀ s : Str, '.' ∉ s → splitAtDot s = (s, none) := by
  intro s
  induction s with
  | nil => intro _; rfl
  | cons c r ih =>
    intro h1
    simp only [List.mem_cons, not_or] at h1
    have hc1 : (c = '.') = False := by
      simp only [eq_iff_iff, iff_false]
      exact fun h => h1.1 h.symm
    simp [splitAtDot, hc1, ih h1.2]

theorem splitAtDot_append : ∀ (D F : Str), '.' ∉ D →
    splitAtDot (D ++ '.' :: F) = (D, some F) := by
  intro D
  induction D with
  | nil => intro F _; simp [splitAtDot]
  | cons c D' ih =>
    intro F h1
    simp only [List.mem_cons, not_or] at h1
    have hc1 : (c = '.') = False := by
      simp only [eq_iff_iff, iff_false]
      exact fun h => h1.1 h.symm
    simp [splitAtDot, hc1, ih F h1.2]

theorem dropWhile_noWS {s : Str} (h : ∀ c ∈ s, isWS c = false) :
    s.dropWhile isWS = s := by
  cases s with
  | nil => rfl
  | cons c cs => simp [List.dropWhile_cons, h c (by simp)]

theorem trim_noWS {s : Str} (h : ∀ c ∈ s, isWS c = false) : trimWS s = s := by
  unfold trimWS
  rw [dropWhile_noWS h, dropWhile_noWS (fun c hc => h c (List.mem_reverse.mp hc))]
  exact List.reverse_reverse s

theorem parseUnsigned_digits {D F : Str} (hD : D ≠ []) (hDdig : ∀ c ∈ D, c.isDigit = true)
    (hFdig : ∀ c ∈ F, c.isDigit = true) (neg : Bool) :
    (parseUnsigned (D ++ (if F.isEmpty then [] else '.' :: F)) neg).isNaN = false := by
  have hdot : ('.' : Char) ∉ D := fun hmem => absurd (hDdig '.' hmem) (by decide)
  have hDe : D.isEmpty = false := by
    cases D with
    | nil => exact absurd rfl hD
    | cons d D' => rfl
  have hDall : D.all Char.isDigit = true := List.all_eq_true.mpr hDdig
  have hne : D ++ (if F.isEmpty then [] else '.' :: F) ≠ toL "Infinity" := by
    intro h
    cases D with
    | nil => exact hD rfl
    | cons d D' =>
      have hh := congrArg List.head? h
      rw [show List.head? (toL "Infinity") = some 'I' from rfl] at hh
      have hd : d = 'I' := by
        have hh2 : some d = some 'I' := by simpa using hh
        injection hh2
      have := hDdig d (by simp)
      rw [hd] at this
      exact absurd this (by decide)
  have hnoe : ('e' : Char) ∉ D ++ (if F.isEmpty then [] else '.' :: F) := by
    intro hmem
    rcases List.mem_append.mp hmem with h | h
    · exact absurd (hDdig 'e' h) (by decide)
    · split_ifs at h with hF
      · simp at h
      · rcases List.mem_cons.mp h with h' | h'
        · exact absurd h' (by decide)
        · exact absurd (hFdig 'e' h') (by decide)
  have hnoE : ('E' : Char) ∉ D ++ (if F.isEmpty then [] else '.' :: F) := by
    intro hmem
    rcases List.mem_append.mp hmem with h | h
    · exact absurd (hDdig 'E' h) (by decide)
    · split_ifs at h with hF
      · simp at h
      · rcases List.mem_cons.mp h with h' | h'
        · exact absurd h' (by decide)
        · exact absurd (hFdig 'E' h') (by decide)
  set s := D ++ (if F.isEmpty then [] else '.' :: F) with hs
  have hsplit : splitAtExp s = (s, none) := splitAtExp_none _ hnoe hnoE
  have hmant : ∃ q : ℚ, parseDecMantissa s = some q := by
    cases hF : F.isEmpty with
    | true =>
      have hsD : s = D := by rw [hs, hF]; simp
      rw [hsD]
      exact ⟨decVal D, by simp [parseDecMantissa, splitAtDot_none D hdot, hDe, hDall]⟩
    | false =>
      have hsD : s = D ++ '.' :: F := by rw [hs, hF]; simp
      rw [hsD]
      have hFall : F.all Char.isDigit = true := List.all_eq_true.mpr hFdig
      refine ⟨(decVal D : ℚ) + (decVal F : ℚ) / (10 : ℚ) ^ F.length, ?_⟩
      simp [parseDecMantissa, splitAtDot_append D F hdot, hDe, hDall, hFall]
  obtain ⟨q, hq⟩ := hmant
  have hdec : parseUnsignedDec s = some q := by
    simp only [parseUnsignedDec]
    rw [hsplit]
    exact hq
  simp only [parseUnsigned, if_neg hne, hdec]
  cases neg <;> rfl

theorem shape_no_radix {d : Char} {D' F : Str} (hD' : ∀ c ∈ D', c.isDigit = true)
    {x : Char} (hx : x.isDigit = false) (hxdot : x ≠ '.') (r : Str) :
    d :: (D' ++ (if F.isEmpty then [] else '.' :: F)) ≠ '0' :: x :: r := by
  intro h
  have h2 : D' ++ (if F.isEmpty then [] else '.' :: F) = x :: r := by
    injection h with _ h2
  cases D' with
  | nil =>
    simp only [List.nil_append] at h2
    cases hF : F.isEmpty with
    | true =>
      rw [hF] at h2
      simp at h2
    | false =>
      rw [hF] at h2
      simp only [Bool.false_eq_true, if_false] at h2
      obtain ⟨h3, -⟩ := List.cons_eq_cons.mp h2
      exact hxdot h3.symm
  | cons d2 D'' =>
    obtain ⟨h3, -⟩ := List.cons_eq_cons.mp h2
    have hd2 := hD' d2 (by simp)
    rw [h3, hx] at hd2
    cases hd2

theorem strToNum_printed (q : ℚ) : (strToNum (jsNumToStr (JSNum.fin q))).isNaN = false := by
  have hden : 0 < q.den := q.pos
  obtain ⟨D, hDdef⟩ : ∃ x, natToDigits (q.num.natAbs / q.den) = x := ⟨_, rfl⟩
  obtain ⟨F, hFdef⟩ : ∃ x, fracDigits 20 (q.num.natAbs % q.den) q.den = x := ⟨_, rfl⟩
  have hDdig : ∀ c ∈ D, c.isDigit = true := by
    rw [← hDdef]
    exact natToDigits_digits
  have hFdig : ∀ c ∈ F, c.isDigit = true := by
    rw [← hFdef]
    exact fracDigits_digits 20 _ _ hden (Nat.mod_lt _ hden)
  have hD : D ≠ [] := by
    rw [← hDdef]
    exact natToDigits_ne_nil _
  have hprint : jsNumToStr (JSNum.fin q) =
      (if q < 0 then ['-'] else []) ++ (D ++ (if F.isEmpty then [] else '.' :: F)) := by
    simp only [jsNumToStr]
    rw [hDdef, hFdef, List.append_assoc]
  have htnoWS : ∀ c ∈ D ++ (if F.isEmpty then [] else '.' :: F), isWS c = false := by
    intro c hc
    rcases List.mem_append.mp hc with h | h
    · exact digit_notWS (hDdig c h)
    · split_ifs at h with hF
      · simp at h
      · rcases List.mem_cons.mp h with rfl | h'
        · decide
        · exact digit_notWS (hFdig c h')
  by_cases hq : q < 0
  · have hp : jsNumToStr (JSNum.fin q) = '-' :: (D ++ (if F.isEmpty then [] else '.' :: F)) := by
      rw [hprint, if_pos hq]
      rfl
    rw [hp]
    have htrim : trimWS ('-' :: (D ++ (if F.isEmpty then [] else '.' :: F))) =
        '-' :: (D ++ (if F.isEmpty then [] else '.' :: F)) := by
      apply trim_noWS
      intro c hc
      rcases List.mem_cons.mp hc with rfl | h
      · decide
      · exact htnoWS c h
    unfold strToNum
    rw [htrim]
    split
    · rename_i heq
      exact absurd heq (by simp)
    · rename_i heq
      injection heq with h1 _
      exact absurd h1 (by decide)
    · rename_i heq
      injection heq with h1 _
      exact absurd h1 (by decide)
    · rename_i heq
      injection heq with h1 _
      exact absurd h1 (by decide)
    · rename_i heq
      injection heq with h1 _
      exact absurd h1 (by decide)
    · rename_i heq
      injection heq with h1 _
      exact absurd h1 (by decide)
    · rename_i heq
      injection heq with h1 _
      exact absurd h1 (by decide)
    · rename_i heq
      injection heq with h1 _
      exact absurd h1 (by decide)
    · rename_i r heq
      injection heq with _ h2
      rw [← h2]
      exact parseUnsigned_digits hD hDdig hFdig true
    · rename_i hno1 hno2 hno3 hno4 hno5 hno6 hno7 hno8 hno9
      exact absurd rfl (hno9 (D ++ (if F.isEmpty then [] else '.' :: F)))
  · have hp : jsNumToStr (JSNum.fin q) = D ++ (if F.isEmpty then [] else '.' :: F) := by
      rw [hprint, if_neg hq]
      rfl
    rw [hp]
    have htrim : trimWS (D ++ (if F.isEmpty then [] else '.' :: F)) =
        D ++ (if F.isEmpty then [] else '.' :: F) := trim_noWS htnoWS
    obtain ⟨d, D', rfl⟩ := List.exists_cons_of_ne_nil hD
    have hd : d.isDigit = true := hDdig d (by simp)
    have hD'dig : ∀ c ∈ D', c.isDigit = true := fun c hc => hDdig c (by simp [hc])
    unfold strToNum
    rw [htrim]
    rw [List.cons_append]
    split
    · rename_i heq
      exact absurd heq (by simp)
    · rename_i heq
      exact absurd heq (shape_no_radix hD'dig (by decide) (by decide) _)
    · rename_i heq
      exact absurd heq (shape_no_radix hD'dig (by decide) (by decide) _)
    · rename_i heq
      exact absurd heq (shape_no_radix hD'dig (by decide) (by decide) _)
    · rename_i heq
      exact absurd heq (shape_no_radix hD'dig (by decide) (by decide) _)
    · rename_i heq
      exact absurd heq (shape_no_radix hD'dig (by decide) (by decide) _)
    · rename_i heq
      exact absurd heq (shape_no_radix hD'dig (by decide) (by decide) _)
    · rename_i heq
      injection heq with h1 _
      exact absurd h1 (digit_ne hd (by decide))
    · rename_i heq
      injection heq with h1 _
      exact absurd h1 (digit_ne hd (by decide))
    · rw [← List.cons_append]
      exact parseUnsigned_digits hD hDdig hFdig false

theorem roundtrip_notNaN {x : JSNum} (h : x.isNaN = false) :
    (strToNum (jsNumToStr x)).isNaN = false := by
  cases x with
  | nan => cases h
  | posInf => decide
  | negInf => decide
  | fin q => exact strToNum_printed q

theorem toStr_valid {v : JSPrim} (h : (toNumber v).isNaN = false) :
    (strToNum (toStr v)).isNaN = false := by
  cases v with
  | num x => exact roundtrip_notNaN h
  | str s => exact h

theorem addUnique_already {s : List Str} {v : JSPrim}
    (h : hasBreakPoint s v = true) : addUniqueBreakPoint s v = s := by
  simp [addUniqueBreakPoint, h]

theorem count_one_of_nodup {l : List Str} {a : Str} (hn : l.Nodup) (ha : a ∈ l) :
    l.count a = 1 := by
  induction l with
  | nil => cases ha
  | cons b r ih =>
    rcases List.mem_cons.mp ha with rfl | har
    · have hbr : a ∉ r := (List.nodup_cons.mp hn).1
      have hz : r.count a = 0 := by
        rw [List.count_eq_zero]
        exact hbr
      simp [List.count_cons, hz]
    · have hone := ih (List.nodup_cons.mp hn).2 har
      have hba : b ≠ a := by
        intro hba
        exact (List.nodup_cons.mp hn).1 (hba ▸ har)
      simp [List.count_cons, hone, hba]

theorem relStr_eq_cases {b b' pre pre' : Str}
    (hpre : pre = LESS_THAN ∨ pre = GREATER_THAN ∨ pre = EQUAL)
    (hpre' : pre' = LESS_THAN ∨ pre' = GREATER_THAN ∨ pre' = EQUAL)
    (h : pre ++ b = pre' ++ b') : pre = pre' ∧ b = b' := by
  rcases hpre with rfl | rfl | rfl <;> rcases hpre' with rfl | rfl | rfl <;>
    simp [LESS_THAN, GREATER_THAN, EQUAL] at h ⊢ <;> tauto

theorem relTok_ne_inactive {w : Int} {b t : Str} (ht : t ∈ inactiveToks w b) :
    relTok w b ≠ t := by
  unfold relTok inactiveToks at *
  split_ifs at ht ⊢ <;> simp at ht <;> rcases ht with rfl | rfl <;>
    simp [LESS_THAN, GREATER_THAN, EQUAL]

theorem addTok_isRelTok {w : Int} {bps : List Str} {t : Str} (ht : t ∈ addToks w bps) :
    isRelTok bps t = true := by
  simp only [addToks, List.mem_map] at ht
  obtain ⟨b, hb, rfl⟩ := ht
  simp only [isRelTok, List.any_eq_true]
  refine ⟨b, hb, ?_⟩
  obtain ⟨pre, hpre, hsh⟩ := relTok_shape w b
  rw [hsh]
  rcases hpre with rfl | rfl | rfl <;> simp

theorem dropWhile_allWS : ∀ s : Str, (∀ c ∈ s, isWS c = true) →
    s.dropWhile isWS = [] := by
  intro s
  induction s with
  | nil => intro _; rfl
  | cons c cs ih =>
    intro h
    rw [List.dropWhile_cons, if_pos (by simpa using h c (by simp))]
    exact ih fun c' hc' => h c' (by simp [hc'])

/-! ## Claim theorems -/

/-- C1 (counterexample): the claim "after reconcile() the class attribute
contains exactly one of lt<b>/e<b>/gt<b> for every registered breakpoint"
is false as stated.  With breakpoints "105" and "10" (in that order),
width 200 and an empty initial class attribute, the relation of 200 to 10
is GREATER_THAN, yet none of gt10/lt10/e10 occurs as a token of the
resulting class attribute: the addition loop skips "gt10" because it is a
substring of the previously appended "gt105". -/
theorem C1_counterexample :
    relTok 200 (toL "10") = toL "gt10" ∧
    tokensOf (updateClasses 200 [toL "105", toL "10"] []) = [toL "gt105"] ∧
    toL "gt10" ∉ tokensOf (updateClasses 200 [toL "105", toL "10"] []) ∧
    toL "lt10" ∉ tokensOf (updateClasses 200 [toL "105", toL "10"] []) ∧
    toL "e10" ∉ tokensOf (updateClasses 200 [toL "105", toL "10"] []) := by
  refine ⟨?_, ?_, ?_, ?_, ?_⟩ <;> decide

/-- C1 (amended): for every viewport width and every registered breakpoint
`b`, after `updateClasses` the class attribute contains the relation token
of `b` matching the numeric relation of the width to `b`, and the other
two relation tokens of `b` are absent — provided the breakpoints are
nonempty digit strings none of which is a prefix of another, and no
relation string of any registered breakpoint occurs as a substring of the
initial class attribute. -/
theorem C1_amended (w : Int) (bps : List Str) (initial : Str) (b : Str)
    (hd : bps.all isDigitStr = true) (hnp : noPreAmong bps = true)
    (hcl : cleanFor initial bps = true) (hb : b ∈ bps) :
    relTok w b ∈ tokensOf (updateClasses w bps initial) ∧
      ∀ t ∈ inactiveToks w b, t ∉ tokensOf (updateClasses w bps initial) := by
  have hmaster := updateClasses_tokens w bps initial hd hnp hcl
  constructor
  · rw [hmaster]
    apply List.mem_append_right
    simp only [addToks, List.mem_map]
    exact ⟨b, hb, rfl⟩
  · intro t ht hmem
    rw [hmaster] at hmem
    rcases List.mem_append.mp hmem with hmem | hmem
    · have hsub := mem_tokensOf_sub hmem
      have hc := cleanFor_spec hcl b hb
      rcases inactive_shape ht with rfl | rfl | rfl
      exacts [hc.1 hsub, hc.2.1 hsub, hc.2.2 hsub]
    · simp only [addToks, List.mem_map] at hmem
      obtain ⟨b2, hb2, hb2eq⟩ := hmem
      obtain ⟨pre2, hpre2, hsh2⟩ := relTok_shape w b2
      rcases inactive_shape ht with heq | heq | heq
      · obtain ⟨-, hbb⟩ :=
          relStr_eq_cases hpre2 (Or.inl rfl) ((hsh2.symm.trans hb2eq).trans heq)
        subst hbb
        exact relTok_ne_inactive ht hb2eq
      · obtain ⟨-, hbb⟩ :=
          relStr_eq_cases hpre2 (Or.inr (Or.inl rfl)) ((hsh2.symm.trans hb2eq).trans heq)
        subst hbb
        exact relTok_ne_inactive ht hb2eq
      · obtain ⟨-, hbb⟩ :=
          relStr_eq_cases hpre2 (Or.inr (Or.inr rfl)) ((hsh2.symm.trans hb2eq).trans heq)
        subst hbb
        exact relTok_ne_inactive ht hb2eq

/-- C1 (witness): the amended theorem applied to breakpoints 768/1024/1100,
width 1024 and initial class "foo bar". -/
theorem C1_witness :
    ([toL "768", toL "1024", toL "1100"].all isDigitStr = true ∧
      noPreAmong [toL "768", toL "1024", toL "1100"] = true ∧
      cleanFor (toL "foo bar") [toL "768", toL "1024", toL "1100"] = true ∧
      toL "1024" ∈ [toL "768", toL "1024", toL "1100"]) ∧
    (relTok 1024 (toL "1024") ∈
        tokensOf (updateClasses 1024 [toL "768", toL "1024", toL "1100"] (toL "foo bar")) ∧
      ∀ t ∈ inactiveToks 1024 (toL "1024"),
        t ∉ tokensOf (updateClasses 1024 [toL "768", toL "1024", toL "1100"] (toL "foo bar"))) :=
  ⟨by decide,
    C1_amended 1024 [toL "768", toL "1024", toL "1100"] (toL "foo bar") (toL "1024")
      (by decide) (by decide) (by decide) (by decide)⟩

/-- C2 (counterexample): reconcile() does not always preserve unrelated
class tokens.  With breakpoint "10", width 200 and initial class
"xlt10x" — a single token that is not a breakpoint-relation token — the
substring removal of "lt10" mangles it into "xx": the set of non-relation
tokens changes from {"xlt10x"} to {"xx"}. -/
theorem C2_counterexample :
    (tokensOf (toL "xlt10x")).filter (fun t => !isRelTok [toL "10"] t) = [toL "xlt10x"] ∧
    (tokensOf (updateClasses 200 [toL "10"] (toL "xlt10x"))).filter
      (fun t => !isRelTok [toL "10"] t) = [toL "xx"] ∧
    toL "xx" ≠ toL "xlt10x" := by
  refine ⟨?_, ?_, ?_⟩ <;> decide

/-- C2 (amended): reconcile() preserves the sequence of class tokens other
than breakpoint-relation tokens — provided the breakpoints are nonempty
digit strings none of which is a prefix of another, and no relation string
of any registered breakpoint occurs as a substring of the initial class
attribute. -/
theorem C2_amended (w : Int) (bps : List Str) (initial : Str)
    (hd : bps.all isDigitStr = true) (hnp : noPreAmong bps = true)
    (hcl : cleanFor initial bps = true) :
    (tokensOf (updateClasses w bps initial)).filter (fun t => !isRelTok bps t) =
      (tokensOf initial).filter (fun t => !isRelTok bps t) := by
  rw [updateClasses_tokens w bps initial hd hnp hcl, List.filter_append]
  have hnil : (addToks w bps).filter (fun t => !isRelTok bps t) = [] := by
    rw [List.filter_eq_nil_iff]
    intro t ht
    simp [addTok_isRelTok ht]
  rw [hnil, List.append_nil]

/-- C2 (witness): the amended theorem applied to breakpoints 768/1024/1100,
width 1024 and initial class "foo bar". -/
theorem C2_witness :
    ([toL "768", toL "1024", toL "1100"].all isDigitStr = true ∧
      noPreAmong [toL "768", toL "1024", toL "1100"] = true ∧
      cleanFor (toL "foo bar") [toL "768", toL "1024", toL "1100"] = true) ∧
    (tokensOf (updateClasses 1024 [toL "768", toL "1024", toL "1100"] (toL "foo bar"))).filter
        (fun t => !isRelTok [toL "768", toL "1024", toL "1100"] t) =
      (tokensOf (toL "foo bar")).filter
        (fun t => !isRelTok [toL "768", toL "1024", toL "1100"] t) :=
  ⟨by decide,
    C2_amended 1024 [toL "768", toL "1024", toL "1100"] (toL "foo bar")
      (by decide) (by decide) (by decide)⟩

/-- C3 (counterexample): the removal phase does not strip every occurrence
of a removed token.  With breakpoint "10", width 200 and current class
"lt10 xlt10x", the token "lt10" is in the remove-set, yet after the
removal phase the class string still contains "lt10" as a substring
(JS `String.replace` with a string pattern replaces only the first
occurrence). -/
theorem C3_counterexample :
    toL "lt10" ∈ removeToks 200 [toL "10"] ∧
    containsSub (applyRemovals (toL "lt10 xlt10x") (removeToks 200 [toL "10"]))
      (toL "lt10") = true := by
  refine ⟨?_, ?_⟩ <;> decide

/-- C3 (amended): each step of the removal phase removes exactly the
earliest occurrence of its token (and is a no-op when the token does not
occur); occurrences beyond the first survive that step. -/
theorem C3_amended (s p : Str) :
    applyRemovals s [p] = replFirst s p ∧
    (¬ p <:+: s → replFirst s p = s) ∧
    (p <:+: s → ∃ a b : Str, a ++ p ++ b = s ∧ replFirst s p = a ++ b ∧
      ∀ a' b' : Str, a' ++ p ++ b' = s → a.length ≤ a'.length) :=
  ⟨rfl, replFirst_no s p, replFirst_yes s p⟩

/-- C3 (witness): the amended theorem applied at concrete strings. -/
theorem C3_witness :
    applyRemovals (toL "ab") [toL "b"] = replFirst (toL "ab") (toL "b") ∧
    replFirst (toL "xx") (toL "lt10") = toL "xx" ∧
    ∃ a b : Str, a ++ toL "lt10" ++ b = toL "lt10 lt10" ∧
      replFirst (toL "lt10 lt10") (toL "lt10") = a ++ b ∧
      ∀ a' b' : Str, a' ++ toL "lt10" ++ b' = toL "lt10 lt10" → a.length ≤ a'.length :=
  ⟨(C3_amended (toL "ab") (toL "b")).1,
    (C3_amended (toL "xx") (toL "lt10")).2.1 (by decide),
    (C3_amended (toL "lt10 lt10") (toL "lt10")).2.2 (by decide)⟩

/-- C4 (counterexample): the claim that every value not coercible to a
finite number is ignored is false: the string "Infinity" coerces to the
non-finite Infinity, passes the `!isNaN(+bp)` guard, and is added to the
BreakpointSet. -/
theorem C4_counterexample :
    toNumber (JSPrim.str (toL "Infinity")) = JSNum.posInf ∧
    addBreakPoints [] (JSArg.one (JSPrim.str (toL "Infinity"))) = [toL "Infinity"] := by
  refine ⟨?_, ?_⟩ <;> decide

/-- C4 (amended): every scalar value whose numeric coercion is NaN is
silently ignored — the call returns normally (the function is total) and
the BreakpointSet is unchanged.  Values coercing to ±Infinity are
accepted, not ignored. -/
theorem C4_amended (s : List Str) (v : JSPrim) (h : (toNumber v).isNaN = true) :
    addBreakPoints s (JSArg.one v) = s :=
  addUnique_nan h

/-- C4 (witness): adding "abc" to the set {"5"} leaves it unchanged. -/
theorem C4_witness :
    (toNumber (JSPrim.str (toL "abc"))).isNaN = true ∧
    addBreakPoints [toL "5"] (JSArg.one (JSPrim.str (toL "abc"))) = [toL "5"] :=
  ⟨by decide, C4_amended [toL "5"] (JSPrim.str (toL "abc")) (by decide)⟩

/-- C5: the relation is determined by numeric comparison of the width with
the numeric coercion of the stored breakpoint string — width above the
value gives the gt token, below gives lt, equal gives e — and on
breakpoints ["768","1024","1100"] at width 1024 the derived class list is
[gt768, e1024, lt1100]. -/
theorem C5_numeric_relation :
    (∀ (w : Int) (b : Str) (q : ℚ), strToNum b = JSNum.fin q →
      relTok w b = if (w : ℚ) > q then GREATER_THAN ++ b
        else if (w : ℚ) < q then LESS_THAN ++ b else EQUAL ++ b) ∧
    addToks 1024 [toL "768", toL "1024", toL "1100"] =
      [toL "gt768", toL "e1024", toL "lt1100"] := by
  constructor
  · intro w b q hq
    unfold relTok widthGt widthLt
    rw [hq]
    by_cases h1 : (w : ℚ) > q
    · simp [h1]
    · by_cases h2 : (w : ℚ) < q
      · simp [h1, h2]
      · simp [h1, h2]
  · decide

/-- C5 (witness): numeric, not lexicographic: 500 < 1024 numerically (even
though "500" > "1024" lexicographically), so the token is lt1024. -/
theorem C5_witness :
    strToNum (toL "1024") = JSNum.fin 1024 ∧
    relTok 500 (toL "1024") = LESS_THAN ++ toL "1024" :=
  ⟨by decide, by
    have h := C5_numeric_relation.1 500 (toL "1024") 1024 (by decide)
    rw [h]
    decide⟩

/-- C6 (counterexample): the claim quantifies over every value; for the
non-numeric value "abc", calling addBreakPoints twice yields a set
containing the canonical string "abc" zero times, not exactly once. -/
theorem C6_counterexample :
    addBreakPoints (addBreakPoints [] (JSArg.one (JSPrim.str (toL "abc"))))
      (JSArg.one (JSPrim.str (toL "abc"))) = [] ∧
    ([] : List Str).count (toL "abc") = 0 := by
  refine ⟨?_, ?_⟩ <;> decide

/-- C6 (amended): for every scalar value coercible to a number, calling
addBreakPoints with it and then again with any scalar of the same
canonical string (e.g. the string "1024" then the number 1024) yields a
BreakpointSet containing that canonical string exactly once, from any
duplicate-free starting state. -/
theorem C6_amended (s : List Str) (v u : JSPrim) (hnodup : s.Nodup)
    (hv : (toNumber v).isNaN = false) (heq : toStr u = toStr v) :
    (addBreakPoints (addBreakPoints s (JSArg.one v)) (JSArg.one u)).count (toStr v) = 1 := by
  show (addUniqueBreakPoint (addUniqueBreakPoint s v) u).count (toStr v) = 1
  have h1 : toStr v ∈ addUniqueBreakPoint s v := addUnique_mem hv
  have hnodup1 : (addUniqueBreakPoint s v).Nodup := addUnique_nodup hnodup
  have hhas : hasBreakPoint (addUniqueBreakPoint s v) u = true :=
    (hasBreakPoint_iff _ _).mpr (heq ▸ h1)
  rw [addUnique_already hhas]
  exact count_one_of_nodup hnodup1 h1

/-- C6 (witness): "1024" then the number 1024, starting from the empty
set. -/
theorem C6_witness :
    (([] : List Str).Nodup ∧ (toNumber (JSPrim.str (toL "1024"))).isNaN = false ∧
      toStr (JSPrim.num (JSNum.fin 1024)) = toStr (JSPrim.str (toL "1024"))) ∧
    (addBreakPoints (addBreakPoints [] (JSArg.one (JSPrim.str (toL "1024"))))
      (JSArg.one (JSPrim.num (JSNum.fin 1024)))).count (toStr (JSPrim.str (toL "1024"))) = 1 :=
  ⟨⟨List.nodup_nil, by decide, by decide⟩,
    C6_amended [] (JSPrim.str (toL "1024")) (JSPrim.num (JSNum.fin 1024))
      List.nodup_nil (by decide) (by decide)⟩

/-- C7: after adding a valid numeric scalar, hasBreakPoint on it returns
true; and hasBreakPoint returns true exactly when the canonical string
form of its argument is present in the BreakpointSet. -/
theorem C7_has_after_add (s : List Str) (v : JSPrim) :
    ((toNumber v).isNaN = false →
      hasBreakPoint (addBreakPoints s (JSArg.one v)) v = true) ∧
    (hasBreakPoint s v = true ↔ toStr v ∈ s) := by
  constructor
  · intro hv
    exact (hasBreakPoint_iff _ _).mpr (addUnique_mem hv)
  · exact hasBreakPoint_iff s v

/-- C7 (witness): adding "768" to the empty set makes hasBreakPoint "768"
true. -/
theorem C7_witness :
    (toNumber (JSPrim.str (toL "768"))).isNaN = false ∧
    hasBreakPoint (addBreakPoints [] (JSArg.one (JSPrim.str (toL "768"))))
      (JSPrim.str (toL "768")) = true :=
  ⟨by decide, (C7_has_after_add [] (JSPrim.str (toL "768"))).1 (by decide)⟩

/-- C8: from any duplicate-free state, addBreakPoints keeps the
BreakpointSet duplicate-free and only extends it by appending (the old
state is a prefix of the new one; entries are never removed or modified).
In this embedding hasBreakPoint and updateClasses do not touch the set at
all. -/
theorem C8_invariants (s : List Str) (arg : JSArg) (h : s.Nodup) :
    (addBreakPoints s arg).Nodup ∧ s <+: addBreakPoints s arg :=
  ⟨addBP_nodup arg h, addBP_pre s arg⟩

/-- C8 (witness): adding ["1024","768"] to {"768"} appends only "1024". -/
theorem C8_witness :
    ([toL "768"] : List Str).Nodup ∧
    (addBreakPoints [toL "768"]
      (JSArg.many [JSPrim.str (toL "1024"), JSPrim.str (toL "768")])).Nodup ∧
    [toL "768"] <+: addBreakPoints [toL "768"]
      (JSArg.many [JSPrim.str (toL "1024"), JSPrim.str (toL "768")]) := by
  have h := C8_invariants [toL "768"]
    (JSArg.many [JSPrim.str (toL "1024"), JSPrim.str (toL "768")]) (by simp)
  exact ⟨by simp, h.1, h.2⟩

/-- C9 (counterexample): the set is not restricted to non-negative values:
adding the number -5 stores "-5", whose numeric value is negative. -/
theorem C9_counterexample :
    addBreakPoints [] (JSArg.one (JSPrim.num (JSNum.fin (-5)))) = [toL "-5"] ∧
    strToNum (toL "-5") = JSNum.fin (-5) ∧ ((-5 : ℚ) < 0) := by
  refine ⟨?_, ?_, ?_⟩ <;> decide

/-- C9 (amended): every entry ever stored in the BreakpointSet is numeric —
its string coerces to a number that is not NaN (it may be negative or
infinite; non-negativity is not enforced). -/
theorem C9_amended (s : List Str) (arg : JSArg)
    (hs : ∀ b ∈ s, (strToNum b).isNaN = false) :
    ∀ b ∈ addBreakPoints s arg, (strToNum b).isNaN = false := by
  intro b hb
  rcases addBP_entries hb with h | ⟨v, rfl, hv⟩
  · exact hs b h
  · exact toStr_valid hv

/-- C9 (witness): the invariant after adding "-5" to the empty set. -/
theorem C9_witness :
    (∀ b ∈ ([] : List Str), (strToNum b).isNaN = false) ∧
    ∀ b ∈ addBreakPoints [] (JSArg.one (JSPrim.str (toL "-5"))),
      (strToNum b).isNaN = false :=
  ⟨by simp, C9_amended [] (JSArg.one (JSPrim.str (toL "-5"))) (by simp)⟩

/-- C10 (counterexample): a whitespace-only string is accepted (it coerces
to 0) but it is stored verbatim as " ", not as ""; consequently
hasBreakPoint "" is false after adding " ". -/
theorem C10_counterexample :
    addBreakPoints [] (JSArg.one (JSPrim.str [' '])) = [[' ']] ∧
    hasBreakPoint [[' ']] (JSPrim.str []) = false := by
  refine ⟨?_, ?_⟩ <;> decide

/-- C10 (amended): the empty string is accepted as a breakpoint (it
coerces to 0) and stored as ""; hasBreakPoint "" is then true; reconcile
derives the bare prefix-only tokens "gt"/"e"/"lt" for it according to the
sign of the width; and any whitespace-only string is likewise accepted
(coercing to 0) but stored verbatim. -/
theorem C10_amended :
    addBreakPoints [] (JSArg.one (JSPrim.str [])) = [([] : Str)] ∧
    hasBreakPoint [([] : Str)] (JSPrim.str []) = true ∧
    (∀ w : Int, 0 < w → relTok w [] = toL "gt") ∧
    relTok 0 [] = toL "e" ∧
    (∀ w : Int, w < 0 → relTok w [] = toL "lt") ∧
    (∀ s : Str, (∀ c ∈ s, isWS c = true) →
      addBreakPoints [] (JSArg.one (JSPrim.str s)) = [s]) := by
  refine ⟨by decide, by decide, ?_, by decide, ?_, ?_⟩
  · intro w hw
    have hnum : strToNum ([] : Str) = JSNum.fin 0 := rfl
    have hgt : widthGt w (strToNum ([] : Str)) = true := by
      rw [hnum]
      simpa [widthGt] using (by exact_mod_cast hw : (0 : ℚ) < (w : ℚ))
    simp [relTok, hgt, GREATER_THAN, toL]
  · intro w hw
    have hnum : strToNum ([] : Str) = JSNum.fin 0 := rfl
    have hgt : widthGt w (strToNum ([] : Str)) = false := by
      rw [hnum]
      simp only [widthGt, decide_eq_false_iff_not, not_lt]
      exact_mod_cast Int.le_of_lt hw
    have hlt : widthLt w (strToNum ([] : Str)) = true := by
      rw [hnum]
      simpa [widthLt] using (by exact_mod_cast hw : (w : ℚ) < (0 : ℚ))
    simp [relTok, hgt, hlt, LESS_THAN, toL]
  · intro s hws
    have htrim : trimWS s = [] := by
      unfold trimWS
      rw [dropWhile_allWS s hws]
      rfl
    have hnum : strToNum s = JSNum.fin 0 := by
      unfold strToNum
      rw [htrim]
    have hnan : (toNumber (JSPrim.str s)).isNaN = false := by
      show (strToNum s).isNaN = false
      rw [hnum]
      rfl
    show addUniqueBreakPoint [] (JSPrim.str s) = [s]
    simp [addUniqueBreakPoint, hnan, hasBreakPoint, toStr]

/-- C10 (witness): the amended theorem applied at widths 1024, -3 and the
whitespace-only string " ". -/
theorem C10_witness :
    relTok 1024 [] = toL "gt" ∧
    relTok (-3) [] = toL "lt" ∧
    ((∀ c ∈ ([' '] : Str), isWS c = true) ∧
      addBreakPoints [] (JSArg.one (JSPrim.str [' '])) = [[' ']]) :=
  ⟨C10_amended.2.2.1 1024 (by decide),
    C10_amended.2.2.2.2.1 (-3) (by decide),
    by decide, C10_amended.2.2.2.2.2 [' '] (by decide)⟩
